import Mathlib

/-!
Verification of the pizza value calculator (src/claude-code-script.py).

The Python program is embedded shallowly:

* Python floats are modelled as exact rationals (`ℚ`); the constant
  `math.pi` is modelled by `mathPi`, the exact rational value of the
  IEEE-754 double that `math.pi` denotes.
* Python strings are modelled as `String` / `List Char`; the string
  operations `str.lower`, `str.replace('cm','')`, `str.strip`,
  `str.split('x')` and the builtin `float(...)` are given explicit
  executable models below (`lowerChar`, `removeCm`, `stripChars`,
  `splitOnX`, `pyFloatL`).  `pyFloatL` models `float` on ordinary
  decimal literals (optional sign, digits, optional decimal point,
  surrounded by whitespace); exponent forms, inf/nan and underscores
  do not occur in this program and are not modelled.
* A raised Python exception (ValueError from `float`, ValueError from
  `max([])`, IndexError from `[0]` on an empty list) is modelled by
  `Option.none`.
-/

namespace PizzaCalc

/-- Code point test for the ASCII whitespace characters removed by
Python's `str.strip()` (space, tab, newline, carriage return,
vertical tab, form feed). -/
def isSpaceC (c : Char) : Bool :=
  c.toNat == 32 || c.toNat == 9 || c.toNat == 10 || c.toNat == 13 ||
    c.toNat == 11 || c.toNat == 12

/-- Code point test for an ASCII decimal digit. -/
def isDigitC (c : Char) : Bool :=
  48 ≤ c.toNat && c.toNat ≤ 57

/-- Model of `str.lower()` on a single ASCII character. -/
def lowerChar (c : Char) : Char :=
  if 65 ≤ c.toNat && c.toNat ≤ 90 then Char.ofNat (c.toNat + 32) else c

/-- Value of a list of decimal digit characters. -/
def digitsToNat (l : List Char) : Nat :=
  l.foldl (fun a c => 10 * a + (c.toNat - 48)) 0

/-- Model of Python `float(...)` on an unsigned decimal literal:
digits with an optional decimal point, at least one digit overall
("26", "26.", ".5", "26.5").  `none` models a raised ValueError. -/
def parseUnsigned (l : List Char) : Option ℚ :=
  let ip := l.takeWhile isDigitC
  let rest := l.dropWhile isDigitC
  match rest with
  | [] => if ip.isEmpty then none else some (digitsToNat ip)
  | '.' :: fp =>
    if fp.all isDigitC && (!ip.isEmpty || !fp.isEmpty) then
      some ((digitsToNat ip : ℚ) + (digitsToNat fp : ℚ) / (10 : ℚ) ^ fp.length)
    else none
  | _ => none

/-- Model of Python `str.strip()`: remove leading and trailing
whitespace characters. -/
def stripChars (l : List Char) : List Char :=
  ((l.dropWhile isSpaceC).reverse.dropWhile isSpaceC).reverse

/-- Model of Python `float(str)` on a character list: surrounding
whitespace is ignored, then an optional sign precedes an unsigned
decimal literal.  `none` models a raised ValueError. -/
def pyFloatL (l : List Char) : Option ℚ :=
  match stripChars l with
  | '+' :: r => parseUnsigned r
  | '-' :: r => (parseUnsigned r).map (fun q => -q)
  | r => parseUnsigned r

/-- Model of Python `str.replace('cm', '')`: a single left-to-right
pass removing non-overlapping occurrences of `cm`. -/
def removeCm : List Char → List Char
  | 'c' :: 'm' :: rest => removeCm rest
  | c :: rest => c :: removeCm rest
  | [] => []

/-- Model of Python `str.split('x')`: split at every occurrence of
the character `x`; on a list with no `x` the result is the singleton
list, and the result is always non-empty. -/
def splitOnX : List Char → List (List Char)
  | [] => [[]]
  | c :: rest =>
    if c = 'x' then [] :: splitOnX rest
    else
      match splitOnX rest with
      | [] => [[c]]
      | p :: ps => (c :: p) :: ps

/-- The exact rational value of the IEEE-754 double `math.pi`,
3.141592653589793115997963468544185161590576171875. -/
def mathPi : ℚ := 884279719003555 / 281474976710656

/-- The `size` argument of `Pizza.__init__`: either a number
(`isinstance(size, (int, float))`) or a string. -/
inductive PySize where
  | num : ℚ → PySize
  | str : String → PySize
deriving DecidableEq

/-- The textual branch of `Pizza._calculate_area`, applied to the
already normalized text `t` (lowercased, `cm` removed, stripped):
if `t` contains `x`, split on `x` and multiply the first two fields,
otherwise read `t` as a diameter and apply the circle formula.
`none` models a raised ValueError from `float(...)`. -/
def areaOfText (t : List Char) : Option ℚ :=
  if t.any (fun c => c == 'x') then
    match pyFloatL (stripChars ((splitOnX t).getD 0 [])),
          pyFloatL (stripChars ((splitOnX t).getD 1 [])) with
    | some w, some h => some (w * h)
    | _, _ => none
  else
    (pyFloatL t).map (fun d => mathPi * (d / 2) ^ 2)

/-- Model of `Pizza._calculate_area`.  A numeric size is a diameter;
a textual size is lowercased, stripped of `cm` and whitespace, and
handed to `areaOfText`. -/
def calculateArea (size : PySize) : Option ℚ :=
  match size with
  | PySize.num d => some (mathPi * (d / 2) ^ 2)
  | PySize.str s => areaOfText (stripChars (removeCm (s.toList.map lowerChar)))

/-- The `Pizza` object after construction: `area` and `value_ratio`
are computed eagerly in `__init__` and never mutated. -/
structure Pizza where
  name : String
  price : ℚ
  area : ℚ
  value_ratio : ℚ
deriving DecidableEq, Inhabited

/-- Model of `Pizza.__init__`: the area is computed from the size
descriptor (propagating a parse failure as `none`), and
`value_ratio = area / price if price > 0 else 0`. -/
def Pizza.mk' (name : String) (size : PySize) (price : ℚ) : Option Pizza :=
  (calculateArea size).map fun a =>
    ⟨name, price, a, if 0 < price then a / price else 0⟩

/-- One step of Python's `max(..., key=...)` loop: the running
maximum is replaced only when a later item compares strictly
greater, so the first maximum is kept. -/
def maxStep (b q : Pizza) : Pizza :=
  if q.value_ratio > b.value_ratio then q else b

/-- The fold underlying `max(pizzas, key=lambda p: p.value_ratio)`
on a non-empty list with first element `p`. -/
def bestOf (p : Pizza) (ps : List Pizza) : Pizza :=
  ps.foldl maxStep p

/-- Model of `find_best_pizza`: Python `max` on an empty list raises
ValueError, modelled by `none`. -/
def find_best_pizza (pizzas : List Pizza) : Option Pizza :=
  match pizzas with
  | [] => none
  | p :: ps => some (bestOf p ps)

/-- Stable insertion of a pizza into a list sorted by descending
`value_ratio`: the new element goes before the first element whose
ratio does not exceed it. -/
def insertDesc (p : Pizza) : List Pizza → List Pizza
  | [] => [p]
  | q :: qs =>
    if p.value_ratio ≥ q.value_ratio then p :: q :: qs
    else q :: insertDesc p qs

/-- Model of `sorted(pizzas, key=lambda p: p.value_ratio,
reverse=True)`: a stable sort by descending value ratio, realised as
an insertion sort (Python's timsort is extensionally the same
function: stable, descending on the key). -/
def rank : List Pizza → List Pizza
  | [] => []
  | p :: ps => insertDesc p (rank ps)

/-- Model of the result of `display_results`: the function ranks the
pizzas and announces `sorted_pizzas[0]` as the best value; on an
empty list the indexing raises IndexError, modelled by `none`. -/
def display_results (pizzas : List Pizza) : Option Pizza :=
  match rank pizzas with
  | [] => none
  | b :: _ => some b

/-- Model of Python `int(...)` on a float: truncation toward zero. -/
def pyInt (q : ℚ) : ℤ :=
  if 0 ≤ q then ⌊q⌋ else ⌈q⌉

/-- The budget block of `main`: `num_pizzas = int(budget / best.price)`,
`total_area = num_pizzas * best.area`,
`leftover = budget - num_pizzas * best.price`. -/
def budget_recommendation (budget : ℚ) (best : Pizza) : ℤ × ℚ × ℚ :=
  let num_pizzas := pyInt (budget / best.price)
  (num_pizzas, (num_pizzas : ℚ) * best.area,
    budget - (num_pizzas : ℚ) * best.price)

/-- The fixed dataset constructed in `main`. -/
def mainPizzas : Option (List Pizza) := do
  let p1 ← Pizza.mk' "Small Pizza" (PySize.str "26cm") (4.8 : ℚ)
  let p2 ← Pizza.mk' "Large Pizza" (PySize.str "30cm") (5.5 : ℚ)
  let p3 ← Pizza.mk' "Party Pizza" (PySize.str "46x33cm") (13 : ℚ)
  pure [p1, p2, p3]

/-- The small pizza as constructed by `main`. -/
def smallP : Pizza :=
  ⟨"Small Pizza", 24 / 5, mathPi * 169, mathPi * 169 / (24 / 5)⟩

/-- The large pizza as constructed by `main`. -/
def largeP : Pizza :=
  ⟨"Large Pizza", 11 / 2, mathPi * 225, mathPi * 225 / (11 / 2)⟩

/-- The party pizza as constructed by `main`. -/
def partyP : Pizza :=
  ⟨"Party Pizza", 13, 1518, 1518 / 13⟩

/-- A size string is accepted by `calculateArea` when every `float`
conversion the code performs succeeds; this predicate states the
exact failure condition. -/
def sizeParseFails (s : String) : Prop :=
  let t := stripChars (removeCm (s.toList.map lowerChar))
  if t.any (fun c => c == 'x') then
    pyFloatL (stripChars ((splitOnX t).getD 0 [])) = none ∨
      pyFloatL (stripChars ((splitOnX t).getD 1 [])) = none
  else pyFloatL t = none

/-- Characters that can occur in a plain numeral: digits, the
decimal point, and the two sign characters. -/
def numChar (c : Char) : Bool :=
  isDigitC c || c.toNat == 46 || c.toNat == 43 || c.toNat == 45

/-- A non-empty string of numeral characters (no whitespace, no unit
letters, no separator). -/
def isPlainNumeral (l : List Char) : Bool :=
  !l.isEmpty && l.all numChar

/-- A pizza value used to exercise ranking ties (ratio 2, first). -/
def tieA : Pizza := ⟨"A", 1, 2, 2⟩

/-- A pizza value used to exercise ranking ties (ratio 2, second). -/
def tieB : Pizza := ⟨"B", 2, 4, 2⟩

/-- A pizza value with a smaller ratio than the tied pair. -/
def tieC : Pizza := ⟨"C", 1, 1, 1⟩

/-- `calculateArea` on a textual size, unfolded to the normalized
text. -/
lemma calculateArea_str (s : String) :
    calculateArea (PySize.str s)
      = areaOfText (stripChars (removeCm (s.toList.map lowerChar))) := rfl

/-- `areaOfText` without an `x` takes the single-diameter branch. -/
lemma areaOfText_no_x {t : List Char}
    (hx : t.any (fun c => c == 'x') = false) :
    areaOfText t = (pyFloatL t).map (fun d => mathPi * (d / 2) ^ 2) := by
  rw [areaOfText, if_neg (by rw [hx]; exact Bool.false_ne_true)]

/-- `areaOfText` with an `x` and both fields parsing multiplies
them. -/
lemma areaOfText_x_eval {t : List Char} {w h : ℚ}
    (hx : t.any (fun c => c == 'x') = true)
    (h0 : pyFloatL (stripChars ((splitOnX t).getD 0 [])) = some w)
    (h1 : pyFloatL (stripChars ((splitOnX t).getD 1 [])) = some h) :
    areaOfText t = some (w * h) := by
  rw [areaOfText, if_pos hx, h0, h1]

/-- The exact failure condition of `areaOfText`. -/
lemma areaOfText_none_iff (t : List Char) :
    (areaOfText t = none) ↔
      (if t.any (fun c => c == 'x') then
        pyFloatL (stripChars ((splitOnX t).getD 0 [])) = none ∨
          pyFloatL (stripChars ((splitOnX t).getD 1 [])) = none
      else pyFloatL t = none) := by
  rw [areaOfText]
  by_cases hx : t.any (fun c => c == 'x') = true
  · rw [if_pos hx, if_pos hx]
    cases h0 : pyFloatL (stripChars ((splitOnX t).getD 0 [])) <;>
      cases h1 : pyFloatL (stripChars ((splitOnX t).getD 1 [])) <;>
      simp
  · rw [if_neg hx, if_neg hx]
    cases h : pyFloatL t <;> simp

/-- Evaluation of the area of the `"26cm"` descriptor. -/
lemma areaEval_26cm : calculateArea (PySize.str "26cm") = some (mathPi * 169) := by
  have h : calculateArea (PySize.str "26cm")
      = some (mathPi * (((26 : ℕ) : ℚ) / 2) ^ 2) := rfl
  rw [h]
  norm_num

/-- Evaluation of the area of the `"30cm"` descriptor. -/
lemma areaEval_30cm : calculateArea (PySize.str "30cm") = some (mathPi * 225) := by
  have h : calculateArea (PySize.str "30cm")
      = some (mathPi * (((30 : ℕ) : ℚ) / 2) ^ 2) := rfl
  rw [h]
  norm_num

/-- Evaluation of the area of the `"46x33cm"` descriptor. -/
lemma areaEval_46x33cm : calculateArea (PySize.str "46x33cm") = some 1518 := by
  have h : calculateArea (PySize.str "46x33cm")
      = some (((46 : ℕ) : ℚ) * ((33 : ℕ) : ℚ)) := rfl
  rw [h]
  norm_num

/-- Evaluation of the area of the `"-5cm"` descriptor: the negative
diameter is accepted. -/
lemma areaEval_neg5cm :
    calculateArea (PySize.str "-5cm") = some (mathPi * (5 / 2) ^ 2) := by
  have h : calculateArea (PySize.str "-5cm")
      = some (mathPi * (-((5 : ℕ) : ℚ) / 2) ^ 2) := rfl
  rw [h]
  norm_num

/-- Evaluation of the `"26x"` descriptor: the second field is empty,
so its `float` conversion fails. -/
lemma areaEval_26x : calculateArea (PySize.str "26x") = none := rfl

/-- Evaluation of the `"2x3x4"` descriptor: only the first two
`x`-separated fields are used. -/
lemma areaEval_2x3x4 : calculateArea (PySize.str "2x3x4") = some 6 := by
  have h : calculateArea (PySize.str "2x3x4")
      = some (((2 : ℕ) : ℚ) * ((3 : ℕ) : ℚ)) := rfl
  rw [h]
  norm_num

/-- `Pizza.mk'` on a successfully parsed size and positive price. -/
lemma mk'_eval_pos (name : String) (size : PySize) (price a : ℚ)
    (hp : 0 < price) (ha : calculateArea size = some a) :
    Pizza.mk' name size price = some ⟨name, price, a, a / price⟩ := by
  rw [Pizza.mk', ha, Option.map_some']
  rw [if_pos hp]

/-- The dataset of `main` evaluates to the three concrete pizzas. -/
lemma mainPizzas_eval : mainPizzas = some [smallP, largeP, partyP] := by
  have e48 : (4.8 : ℚ) = 24 / 5 := by norm_num
  have e55 : (5.5 : ℚ) = 11 / 2 := by norm_num
  rw [mainPizzas, e48, e55]
  rw [mk'_eval_pos _ _ _ _ (by norm_num) areaEval_26cm]
  rw [mk'_eval_pos _ _ _ _ (by norm_num) areaEval_30cm]
  rw [mk'_eval_pos _ _ _ _ (by norm_num) areaEval_46x33cm]
  rfl

/-- The value ratio of the small pizza is strictly below that of the
large pizza. -/
lemma ratio_small_lt_large : smallP.value_ratio < largeP.value_ratio := by
  have h1 : smallP.value_ratio = mathPi * 169 / (24 / 5) := rfl
  have h2 : largeP.value_ratio = mathPi * 225 / (11 / 2) := rfl
  rw [h1, h2, mathPi]
  norm_num

/-- The value ratio of the party pizza is strictly below that of the
large pizza. -/
lemma ratio_party_lt_large : partyP.value_ratio < largeP.value_ratio := by
  have h1 : partyP.value_ratio = 1518 / 13 := rfl
  have h2 : largeP.value_ratio = mathPi * 225 / (11 / 2) := rfl
  rw [h1, h2, mathPi]
  norm_num

/-- The value ratio of the small pizza is strictly below that of the
party pizza. -/
lemma ratio_small_lt_party : smallP.value_ratio < partyP.value_ratio := by
  have h1 : smallP.value_ratio = mathPi * 169 / (24 / 5) := rfl
  have h2 : partyP.value_ratio = 1518 / 13 := rfl
  rw [h1, h2, mathPi]
  norm_num

/-- The `max` step keeps the large pizza over the small one. -/
lemma maxStep_small_large : maxStep smallP largeP = largeP := by
  simp only [maxStep, gt_iff_lt]
  rw [if_pos ratio_small_lt_large]

/-- The `max` step keeps the large pizza over the party one. -/
lemma maxStep_large_party : maxStep largeP partyP = largeP := by
  simp only [maxStep, gt_iff_lt]
  rw [if_neg (not_lt.mpr (le_of_lt ratio_party_lt_large))]

/-- `find_best_pizza` on the dataset of `main` selects the large
pizza. -/
lemma find_best_eval :
    find_best_pizza [smallP, largeP, partyP] = some largeP := by
  simp only [find_best_pizza, bestOf, List.foldl_cons, List.foldl_nil,
    maxStep_small_large, maxStep_large_party]

/-- `rank` on the dataset of `main` sorts the pizzas as large,
party, small. -/
lemma rank_eval : rank [smallP, largeP, partyP] = [largeP, partyP, smallP] := by
  have h2 : insertDesc largeP [partyP] = [largeP, partyP] := by
    simp only [insertDesc, ge_iff_le]
    rw [if_pos (le_of_lt ratio_party_lt_large)]
  have h3 : insertDesc smallP [largeP, partyP] = [largeP, partyP, smallP] := by
    simp only [insertDesc, ge_iff_le]
    rw [if_neg (not_le.mpr ratio_small_lt_large),
      if_neg (not_le.mpr ratio_small_lt_party)]
  simp only [rank]
  rw [show insertDesc partyP [] = [partyP] from rfl, h2, h3]

/-- The budget block of `main` on budget 20 and the large pizza. -/
lemma budget_eval :
    budget_recommendation 20 largeP = (3, 675 * mathPi, 7 / 2) := by
  have hprice : largeP.price = 11 / 2 := rfl
  have harea : largeP.area = mathPi * 225 := rfl
  have hfloor : ⌊(20 : ℚ) / (11 / 2)⌋ = 3 := by
    rw [Int.floor_eq_iff] <;> norm_num
  have hint : pyInt ((20 : ℚ) / largeP.price) = 3 := by
    rw [pyInt, if_pos (by rw [hprice]; norm_num), hprice, hfloor]
  rw [budget_recommendation, hint, hprice, harea]
  refine Prod.ext rfl (Prod.ext ?_ ?_) <;> (push_cast; ring)

/-- C1: on the fixed dataset of `main` the computed areas are within
0.005 of 530.93, 706.86 and 1518.00 cm², the value ratios are within
0.005 of 110.61, 128.52 and 116.77, the best item is the Large Pizza
with ratio about 128.52, and with budget 20.00 the recommendation is
3 pizzas, a total area within 0.005 of 2120.58 cm², and leftover
3.50. -/
theorem claim_C1_fixed_dataset :
    mainPizzas = some [smallP, largeP, partyP] ∧
    |smallP.area - 530.93| < 5 / 1000 ∧
    |largeP.area - 706.86| < 5 / 1000 ∧
    partyP.area = 1518 ∧
    |smallP.value_ratio - 110.61| < 5 / 1000 ∧
    |largeP.value_ratio - 128.52| < 5 / 1000 ∧
    |partyP.value_ratio - 116.77| < 5 / 1000 ∧
    find_best_pizza [smallP, largeP, partyP] = some largeP ∧
    display_results [smallP, largeP, partyP] = some largeP ∧
    largeP.name = "Large Pizza" ∧
    budget_recommendation 20 largeP = (3, 675 * mathPi, 7 / 2) ∧
    |675 * mathPi - 2120.58| < 5 / 1000 := by
  refine ⟨mainPizzas_eval, ?_, ?_, rfl, ?_, ?_, ?_, find_best_eval, ?_, rfl,
    budget_eval, ?_⟩
  · have e : smallP.area = mathPi * 169 := rfl
    rw [e, abs_sub_lt_iff, mathPi]
    constructor <;> norm_num
  · have e : largeP.area = mathPi * 225 := rfl
    rw [e, abs_sub_lt_iff, mathPi]
    constructor <;> norm_num
  · have e : smallP.value_ratio = mathPi * 169 / (24 / 5) := rfl
    rw [e, abs_sub_lt_iff, mathPi]
    constructor <;> norm_num
  · have e : largeP.value_ratio = mathPi * 225 / (11 / 2) := rfl
    rw [e, abs_sub_lt_iff, mathPi]
    constructor <;> norm_num
  · have e : partyP.value_ratio = 1518 / 13 := rfl
    rw [e, abs_sub_lt_iff]
    constructor <;> norm_num
  · rw [display_results, rank_eval]
  · rw [abs_sub_lt_iff, mathPi]
    constructor <;> norm_num

/-- C10: on an empty collection both ranking entry points fail with
an exception (`none` models the ValueError raised by `max([])` and
the IndexError raised by `sorted_pizzas[0]`) instead of returning a
sentinel value. -/
theorem claim_C10_empty_input :
    find_best_pizza [] = none ∧ display_results [] = none :=
  ⟨rfl, rfl⟩

/-- C2 counterexample: the claim says the descriptor `"-5cm"`
raises a parse error, but `_calculate_area` accepts it and returns
the circle area of the negative diameter,
`math.pi * (5/2)^2`. -/
theorem claim_C2_counterexample :
    calculateArea (PySize.str "-5cm") = some (mathPi * (5 / 2) ^ 2) :=
  areaEval_neg5cm

/-- C2 (amended): the area calculator fails exactly when a `float`
conversion fails: in the two-dimension case when the first or the
second `x`-separated field does not parse as a real number (fields
beyond the second are ignored, so `"2x3x4"` yields 6 without error),
and otherwise when the whole normalized text does not parse.  In
particular `"26x"` raises a parse error, but a non-positive
dimension is not rejected: `"-5cm"` yields the positive area
`math.pi * (5/2)^2`. -/
theorem claim_C2_amended :
    calculateArea (PySize.str "26x") = none ∧
    calculateArea (PySize.str "-5cm") = some (mathPi * (5 / 2) ^ 2) ∧
    calculateArea (PySize.str "2x3x4") = some 6 ∧
    ∀ s : String, calculateArea (PySize.str s) = none ↔ sizeParseFails s := by
  refine ⟨areaEval_26x, areaEval_neg5cm, areaEval_2x3x4, fun s => ?_⟩
  rw [calculateArea_str s, areaOfText_none_iff]
  rfl

/-- C3: for budget `b ≥ 0` and a best item of price `p > 0` and area
`a`, the budget recommendation is `count = floor(b / p)` (which is 0
when `p` exceeds `b`), `total_area = count * a`, and
`leftover = b - count * p`, which is non-negative. -/
theorem claim_C3_budget (budget : ℚ) (best : Pizza)
    (hb : 0 ≤ budget) (hp : 0 < best.price) :
    budget_recommendation budget best =
      (⌊budget / best.price⌋, (⌊budget / best.price⌋ : ℚ) * best.area,
        budget - (⌊budget / best.price⌋ : ℚ) * best.price) ∧
    (best.price > budget → ⌊budget / best.price⌋ = 0) ∧
    0 ≤ budget - (⌊budget / best.price⌋ : ℚ) * best.price := by
  have hq : 0 ≤ budget / best.price := div_nonneg hb hp.le
  have hint : pyInt (budget / best.price) = ⌊budget / best.price⌋ := by
    rw [pyInt, if_pos hq]
  refine ⟨by rw [budget_recommendation, hint], ?_, ?_⟩
  · intro hgt
    rw [Int.floor_eq_zero_iff]
    constructor
    · exact hq
    · rw [div_lt_one hp]
      exact hgt
  · have hle : (⌊budget / best.price⌋ : ℚ) ≤ budget / best.price :=
      Int.floor_le _
    have h2 : (⌊budget / best.price⌋ : ℚ) * best.price ≤ budget := by
      calc (⌊budget / best.price⌋ : ℚ) * best.price
          ≤ (budget / best.price) * best.price :=
            mul_le_mul_of_nonneg_right hle hp.le
        _ = budget := div_mul_cancel₀ budget hp.ne'
    linarith

/-- C3 witness: the theorem applied to budget 20 and the large
pizza of the fixed dataset. -/
theorem claim_C3_budget_witness :
    budget_recommendation 20 largeP =
      (⌊(20 : ℚ) / largeP.price⌋, (⌊(20 : ℚ) / largeP.price⌋ : ℚ) * largeP.area,
        20 - (⌊(20 : ℚ) / largeP.price⌋ : ℚ) * largeP.price) ∧
    (largeP.price > 20 → ⌊(20 : ℚ) / largeP.price⌋ = 0) ∧
    0 ≤ 20 - (⌊(20 : ℚ) / largeP.price⌋ : ℚ) * largeP.price :=
  claim_C3_budget 20 largeP (by norm_num)
    (by rw [show largeP.price = 11 / 2 from rfl]; norm_num)

/-- C6: `value_ratio` is `area / price` for a positive price and `0`
for a non-positive price; in particular a zero price yields a pizza
with `value_ratio = 0` instead of a division error. -/
theorem claim_C6_zero_price (name : String) (size : PySize) (price a : ℚ)
    (ha : calculateArea size = some a) :
    (∀ pz, Pizza.mk' name size price = some pz →
      (0 < price → pz.value_ratio = pz.area / price) ∧
      (price = 0 → pz.value_ratio = 0)) ∧
    ∃ pz0, Pizza.mk' name size 0 = some pz0 ∧ pz0.value_ratio = 0 := by
  constructor
  · intro pz hpz
    rw [Pizza.mk', ha, Option.map_some', Option.some_inj] at hpz
    subst hpz
    constructor
    · intro hp
      rw [if_pos hp]
    · intro hp
      rw [if_neg (by rw [hp]; exact lt_irrefl 0)]
  · refine ⟨⟨name, 0, a, 0⟩, ?_, rfl⟩
    rw [Pizza.mk', ha, Option.map_some']
    rw [if_neg (lt_irrefl 0)]

/-- C6 witness: the theorem applied to the small pizza descriptor
with price 24/5. -/
theorem claim_C6_zero_price_witness :
    (∀ pz, Pizza.mk' "Small Pizza" (PySize.str "26cm") (24 / 5) = some pz →
      (0 < (24 / 5 : ℚ) → pz.value_ratio = pz.area / (24 / 5)) ∧
      ((24 / 5 : ℚ) = 0 → pz.value_ratio = 0)) ∧
    ∃ pz0, Pizza.mk' "Small Pizza" (PySize.str "26cm") 0 = some pz0 ∧
      pz0.value_ratio = 0 :=
  claim_C6_zero_price "Small Pizza" (PySize.str "26cm") (24 / 5)
    (mathPi * 169) areaEval_26cm

/-- The code points of a numeral character. -/
lemma numChar_toNat {c : Char} (h : numChar c = true) :
    (48 ≤ c.toNat ∧ c.toNat ≤ 57) ∨ c.toNat = 46 ∨ c.toNat = 43 ∨ c.toNat = 45 := by
  simp only [numChar, isDigitC, Bool.or_eq_true, Bool.and_eq_true,
    decide_eq_true_eq, beq_iff_eq] at h
  tauto

/-- The code points of a whitespace character. -/
lemma spaceC_toNat {c : Char} (h : isSpaceC c = true) :
    c.toNat = 32 ∨ c.toNat = 9 ∨ c.toNat = 10 ∨ c.toNat = 13 ∨
      c.toNat = 11 ∨ c.toNat = 12 := by
  simp only [isSpaceC, Bool.or_eq_true, beq_iff_eq] at h
  tauto

/-- `lowerChar` fixes every character below the uppercase range. -/
lemma lowerChar_eq_of_toNat_lt {c : Char} (h : c.toNat < 65) : lowerChar c = c := by
  rw [lowerChar]
  split_ifs with hc
  · exfalso
    simp only [Bool.and_eq_true, decide_eq_true_eq] at hc
    omega
  · rfl

/-- `lowerChar` fixes numeral characters. -/
lemma numChar_lowerChar {c : Char} (h : numChar c = true) : lowerChar c = c :=
  lowerChar_eq_of_toNat_lt (by rcases numChar_toNat h with ⟨h1, h2⟩ | h | h | h <;> omega)

/-- `lowerChar` fixes whitespace characters. -/
lemma spaceC_lowerChar {c : Char} (h : isSpaceC c = true) : lowerChar c = c :=
  lowerChar_eq_of_toNat_lt (by rcases spaceC_toNat h with h | h | h | h | h | h <;> omega)

/-- Two characters with different code points differ. -/
lemma char_ne_of_toNat_ne {c d : Char} (h : c.toNat ≠ d.toNat) : c ≠ d := by
  intro he
  exact h (by rw [he])

/-- A numeral character is not `c`, `m` or `x` and is not
whitespace. -/
lemma numChar_ne {c : Char} (h : numChar c = true) :
    c ≠ 'c' ∧ c ≠ 'm' ∧ c ≠ 'x' ∧ isSpaceC c = false := by
  have ht := numChar_toNat h
  refine ⟨char_ne_of_toNat_ne ?_, char_ne_of_toNat_ne ?_, char_ne_of_toNat_ne ?_, ?_⟩
  · show c.toNat ≠ 99
    omega
  · show c.toNat ≠ 109
    omega
  · show c.toNat ≠ 120
    omega
  · cases hsp : isSpaceC c
    · rfl
    · exfalso
      have := spaceC_toNat hsp
      omega

/-- A whitespace character is not `c`, `m` or `x`. -/
lemma spaceC_ne {c : Char} (h : isSpaceC c = true) :
    c ≠ 'c' ∧ c ≠ 'm' ∧ c ≠ 'x' := by
  have ht := spaceC_toNat h
  refine ⟨char_ne_of_toNat_ne ?_, char_ne_of_toNat_ne ?_, char_ne_of_toNat_ne ?_⟩
  · show c.toNat ≠ 99
    omega
  · show c.toNat ≠ 109
    omega
  · show c.toNat ≠ 120
    omega

/-- `removeCm` passes a non-`c` head through. -/
lemma removeCm_cons_of_ne {c : Char} (hc : c ≠ 'c') (l : List Char) :
    removeCm (c :: l) = c :: removeCm l := by
  cases l with
  | nil =>
    rw [removeCm.eq_def]
    split
    · rename_i heq
      exact absurd (by injection heq) hc
    · rename_i c2 rest2 hne heq
      injection heq with h1 h2
      subst h1
      subst h2
      rfl
    · rename_i heq
      exact absurd heq (by simp)
  | cons d l' =>
    rw [removeCm.eq_def]
    split
    · rename_i heq
      exact absurd (by injection heq) hc
    · rename_i c2 rest2 hne heq
      injection heq with h1 h2
      subst h1
      subst h2
      rfl
    · rename_i heq
      exact absurd heq (by simp)

/-- `removeCm` removes a leading `cm`. -/
lemma removeCm_cm (l : List Char) : removeCm ('c' :: 'm' :: l) = removeCm l := rfl

/-- `removeCm` skips over a prefix containing no `c`. -/
lemma removeCm_append_of_no_c {l1 : List Char} (h : ∀ c ∈ l1, c ≠ 'c')
    (l2 : List Char) : removeCm (l1 ++ l2) = l1 ++ removeCm l2 := by
  induction l1 with
  | nil => rfl
  | cons a t ih =>
    rw [List.cons_append, removeCm_cons_of_ne (h a (List.mem_cons_self a t))]
    rw [ih (fun c hc => h c (List.mem_cons_of_mem a hc))]
    rw [List.cons_append]

/-- `removeCm` fixes a list containing no `c`. -/
lemma removeCm_of_no_c {l : List Char} (h : ∀ c ∈ l, c ≠ 'c') :
    removeCm l = l := by
  have h0 : removeCm [] = ([] : List Char) := rfl
  have := removeCm_append_of_no_c h []
  simpa [h0] using this

/-- `dropWhile` skips a prefix on which the predicate holds. -/
lemma dropWhile_append_of_all {p : Char → Bool} {l1 : List Char}
    (h : ∀ c ∈ l1, p c = true) (l2 : List Char) :
    List.dropWhile p (l1 ++ l2) = List.dropWhile p l2 := by
  induction l1 with
  | nil => rfl
  | cons a t ih =>
    rw [List.cons_append, List.dropWhile_cons_of_pos (h a (List.mem_cons_self a t))]
    exact ih (fun c hc => h c (List.mem_cons_of_mem a hc))

/-- `dropWhile` stops at a head on which the predicate fails. -/
lemma dropWhile_cons_of_neg {p : Char → Bool} {a : Char}
    (h : p a = false) (l : List Char) :
    List.dropWhile p (a :: l) = a :: l := by
  rw [List.dropWhile_cons_of_neg]
  rw [h]
  exact Bool.false_ne_true

/-- `stripChars` of whitespace, then a whitespace-free non-empty
core, then whitespace, is the core. -/
lemma stripChars_sandwich {pre s tail : List Char}
    (hpre : ∀ c ∈ pre, isSpaceC c = true) (htail : ∀ c ∈ tail, isSpaceC c = true)
    (hs : ∀ c ∈ s, isSpaceC c = false) (hne : s ≠ []) :
    stripChars (pre ++ s ++ tail) = s := by
  obtain ⟨a, s', rfl⟩ := List.exists_cons_of_ne_nil hne
  rw [stripChars, List.append_assoc, dropWhile_append_of_all hpre]
  rw [List.cons_append, dropWhile_cons_of_neg (hs a (List.mem_cons_self a s')) _]
  rw [show a :: (s' ++ tail) = (a :: s') ++ tail from rfl, List.reverse_append]
  rw [dropWhile_append_of_all (fun c hc => htail c (List.mem_reverse.mp hc))]
  obtain ⟨b, r', hrev⟩ :
      ∃ b r', (a :: s').reverse = b :: r' := by
    cases hr : (a :: s').reverse with
    | nil => exact absurd hr (by simp)
    | cons b r' => exact ⟨b, r', rfl⟩
  have hb : isSpaceC b = false := by
    have : b ∈ (a :: s').reverse := by rw [hrev]; exact List.mem_cons_self b r'
    exact hs b (List.mem_reverse.mp this)
  rw [hrev, dropWhile_cons_of_neg hb, ← hrev, List.reverse_reverse]

/-- `stripChars` fixes a whitespace-free non-empty list. -/
lemma stripChars_of_no_space {s : List Char}
    (hs : ∀ c ∈ s, isSpaceC c = false) (hne : s ≠ []) :
    stripChars s = s := by
  have := @stripChars_sandwich [] s []
    (by intro c hc; cases hc) (by intro c hc; cases hc) hs hne
  simpa using this

/-- `splitOnX` of a list without `x` is that list alone. -/
lemma splitOnX_of_no_x {l : List Char} (h : ∀ c ∈ l, c ≠ 'x') :
    splitOnX l = [l] := by
  induction l with
  | nil => rfl
  | cons a t ih =>
    rw [splitOnX]
    rw [if_neg (h a (List.mem_cons_self a t))]
    rw [ih (fun c hc => h c (List.mem_cons_of_mem a hc))]

/-- `splitOnX` splits at the first `x` after an `x`-free prefix. -/
lemma splitOnX_append_x {l1 : List Char} (h : ∀ c ∈ l1, c ≠ 'x')
    (l2 : List Char) : splitOnX (l1 ++ 'x' :: l2) = l1 :: splitOnX l2 := by
  induction l1 with
  | nil =>
    rw [List.nil_append, splitOnX, if_pos rfl]
  | cons a t ih =>
    rw [List.cons_append, splitOnX]
    rw [if_neg (h a (List.mem_cons_self a t))]
    rw [ih (fun c hc => h c (List.mem_cons_of_mem a hc))]

/-- Membership of `x` makes the `any` test in `calculateArea`
true. -/
lemma anyX_of_mem {l : List Char} (h : 'x' ∈ l) :
    l.any (fun c => c == 'x') = true := by
  rw [List.any_eq_true]
  exact ⟨'x', h, by simp⟩

/-- Absence of `x` makes the `any` test in `calculateArea` false. -/
lemma anyX_of_no_x {l : List Char} (h : ∀ c ∈ l, c ≠ 'x') :
    l.any (fun c => c == 'x') = false := by
  rw [List.any_eq_false]
  intro c hc
  simpa using h c hc

/-- A plain numeral is non-empty and consists of numeral
characters. -/
lemma isPlainNumeral_spec {s : List Char} (h : isPlainNumeral s = true) :
    s ≠ [] ∧ ∀ c ∈ s, numChar c = true := by
  simp only [isPlainNumeral, Bool.and_eq_true, Bool.not_eq_true',
    List.all_eq_true] at h
  refine ⟨?_, h.2⟩
  intro he
  rw [he] at h
  simp at h

/-- Mapping `lowerChar` over a list it fixes pointwise. -/
lemma map_lowerChar_fix {l : List Char} (h : ∀ c ∈ l, lowerChar c = c) :
    l.map lowerChar = l := by
  induction l with
  | nil => rfl
  | cons a t ih =>
    rw [List.map_cons, h a (List.mem_cons_self a t),
      ih (fun c hc => h c (List.mem_cons_of_mem a hc))]

/-- Normalization (`lower`, drop `cm`, `strip`) of a numeral
surrounded by whitespace and an optional unit suffix of any letter
case yields exactly the numeral. -/
lemma normalize_round {pre mid post s u : List Char}
    (hpre : ∀ c ∈ pre, isSpaceC c = true) (hmid : ∀ c ∈ mid, isSpaceC c = true)
    (hpost : ∀ c ∈ post, isSpaceC c = true)
    (hs : isPlainNumeral s = true)
    (hu : u = [] ∨ u.map lowerChar = ['c', 'm']) :
    stripChars (removeCm ((pre ++ s ++ mid ++ u ++ post).map lowerChar)) = s := by
  obtain ⟨hne, hnum⟩ := isPlainNumeral_spec hs
  have hmapPre : pre.map lowerChar = pre :=
    map_lowerChar_fix (fun c hc => spaceC_lowerChar (hpre c hc))
  have hmapS : s.map lowerChar = s :=
    map_lowerChar_fix (fun c hc => numChar_lowerChar (hnum c hc))
  have hmapMid : mid.map lowerChar = mid :=
    map_lowerChar_fix (fun c hc => spaceC_lowerChar (hmid c hc))
  have hmapPost : post.map lowerChar = post :=
    map_lowerChar_fix (fun c hc => spaceC_lowerChar (hpost c hc))
  have hnoC : ∀ c ∈ (pre ++ s) ++ mid, c ≠ 'c' := by
    intro c hc
    rcases List.mem_append.mp hc with hc | hc
    · rcases List.mem_append.mp hc with hc | hc
      · exact (spaceC_ne (hpre c hc)).1
      · exact (numChar_ne (hnum c hc)).1
    · exact (spaceC_ne (hmid c hc)).1
  have hnoCpost : ∀ c ∈ post, c ≠ 'c' := fun c hc => (spaceC_ne (hpost c hc)).1
  have htailSpace : ∀ c ∈ mid ++ post, isSpaceC c = true := by
    intro c hc
    rcases List.mem_append.mp hc with hc | hc
    · exact hmid c hc
    · exact hpost c hc
  have hsNoSpace : ∀ c ∈ s, isSpaceC c = false :=
    fun c hc => (numChar_ne (hnum c hc)).2.2.2
  rw [List.map_append, List.map_append, List.map_append, List.map_append]
  rw [hmapPre, hmapS, hmapMid, hmapPost]
  rcases hu with hu | hu
  · subst hu
    rw [List.map_nil, List.append_nil]
    rw [removeCm_append_of_no_c hnoC post, removeCm_of_no_c hnoCpost]
    simpa [List.append_assoc] using
      stripChars_sandwich hpre htailSpace hsNoSpace hne
  · rw [hu]
    rw [show ((pre ++ s) ++ mid) ++ ['c', 'm'] ++ post
        = ((pre ++ s) ++ mid) ++ ('c' :: 'm' :: post) from by
      simp [List.append_assoc]]
    rw [removeCm_append_of_no_c hnoC, removeCm_cm, removeCm_of_no_c hnoCpost]
    simpa [List.append_assoc] using
      stripChars_sandwich hpre htailSpace hsNoSpace hne

/-- `calculateArea` on a round descriptor: whitespace, a numeral
parsing to `d`, whitespace, an optional any-case `cm`, whitespace.
The result is the circle formula at diameter `d`. -/
lemma calcArea_round_str {pre mid post s u : List Char} {d : ℚ}
    (hpre : ∀ c ∈ pre, isSpaceC c = true) (hmid : ∀ c ∈ mid, isSpaceC c = true)
    (hpost : ∀ c ∈ post, isSpaceC c = true)
    (hs : isPlainNumeral s = true)
    (hu : u = [] ∨ u.map lowerChar = ['c', 'm'])
    (hparse : pyFloatL s = some d) :
    calculateArea (PySize.str (String.mk (pre ++ s ++ mid ++ u ++ post)))
      = some (mathPi * (d / 2) ^ 2) := by
  obtain ⟨hne, hnum⟩ := isPlainNumeral_spec hs
  have hxs : ∀ c ∈ s, c ≠ 'x' := fun c hc => (numChar_ne (hnum c hc)).2.2.1
  have htl : (String.mk (pre ++ s ++ mid ++ u ++ post)).toList
      = pre ++ s ++ mid ++ u ++ post := rfl
  have hnorm := normalize_round hpre hmid hpost hs hu
  rw [calculateArea_str, htl, hnorm]
  rw [areaOfText_no_x (anyX_of_no_x hxs), hparse]
  rfl

/-- `calculateArea` on a rectangular descriptor
`<numeral>x<numeral>cm`: the result is width times height. -/
lemma calcArea_rect_str {sw sh : List Char} {w h : ℚ}
    (hw : isPlainNumeral sw = true) (hh : isPlainNumeral sh = true)
    (hpw : pyFloatL sw = some w) (hph : pyFloatL sh = some h) :
    calculateArea (PySize.str (String.mk (sw ++ 'x' :: (sh ++ ['c', 'm']))))
      = some (w * h) := by
  obtain ⟨hwne, hwnum⟩ := isPlainNumeral_spec hw
  obtain ⟨hhne, hhnum⟩ := isPlainNumeral_spec hh
  have hxw : ∀ c ∈ sw, c ≠ 'x' := fun c hc => (numChar_ne (hwnum c hc)).2.2.1
  have hxh : ∀ c ∈ sh, c ≠ 'x' := fun c hc => (numChar_ne (hhnum c hc)).2.2.1
  have htl : (String.mk (sw ++ 'x' :: (sh ++ ['c', 'm']))).toList
      = sw ++ 'x' :: (sh ++ ['c', 'm']) := rfl
  have hmap : (sw ++ 'x' :: (sh ++ ['c', 'm'])).map lowerChar
      = sw ++ 'x' :: (sh ++ ['c', 'm']) := by
    apply map_lowerChar_fix
    intro c hc
    rcases List.mem_append.mp hc with hc | hc
    · exact numChar_lowerChar (hwnum c hc)
    · rcases List.mem_cons.mp hc with hc | hc
      · subst hc
        rfl
      · rcases List.mem_append.mp hc with hc | hc
        · exact numChar_lowerChar (hhnum c hc)
        · rcases List.mem_cons.mp hc with hc | hc
          · subst hc
            rfl
          · rcases List.mem_cons.mp hc with hc | hc
            · subst hc
              rfl
            · cases hc
  have hshape : sw ++ 'x' :: (sh ++ ['c', 'm'])
      = (sw ++ 'x' :: sh) ++ ['c', 'm'] := by
    simp [List.append_assoc]
  have hnoC : ∀ c ∈ sw ++ 'x' :: sh, c ≠ 'c' := by
    intro c hc
    rcases List.mem_append.mp hc with hc | hc
    · exact (numChar_ne (hwnum c hc)).1
    · rcases List.mem_cons.mp hc with hc | hc
      · subst hc
        decide
      · exact (numChar_ne (hhnum c hc)).1
  have hcore : removeCm ((sw ++ 'x' :: sh) ++ ['c', 'm'])
      = sw ++ 'x' :: sh := by
    rw [removeCm_append_of_no_c hnoC, removeCm_cm]
    simp [show removeCm [] = ([] : List Char) from rfl]
  have hnoSpace : ∀ c ∈ sw ++ 'x' :: sh, isSpaceC c = false := by
    intro c hc
    rcases List.mem_append.mp hc with hc | hc
    · exact (numChar_ne (hwnum c hc)).2.2.2
    · rcases List.mem_cons.mp hc with hc | hc
      · subst hc
        rfl
      · exact (numChar_ne (hhnum c hc)).2.2.2
  have hcne : sw ++ 'x' :: sh ≠ [] := by simp
  have hstrip : stripChars (sw ++ 'x' :: sh) = sw ++ 'x' :: sh :=
    stripChars_of_no_space hnoSpace hcne
  have hnorm : stripChars (removeCm ((sw ++ 'x' :: (sh ++ ['c', 'm'])).map lowerChar))
      = sw ++ 'x' :: sh := by
    rw [hmap, hshape, hcore, hstrip]
  have hsplit : splitOnX (sw ++ 'x' :: sh) = [sw, sh] := by
    rw [splitOnX_append_x hxw, splitOnX_of_no_x hxh]
  have hstripw : stripChars sw = sw :=
    stripChars_of_no_space (fun c hc => (numChar_ne (hwnum c hc)).2.2.2) hwne
  have hstriph : stripChars sh = sh :=
    stripChars_of_no_space (fun c hc => (numChar_ne (hhnum c hc)).2.2.2) hhne
  have hcond : (sw ++ 'x' :: sh).any (fun c => c == 'x') = true :=
    anyX_of_mem (List.mem_append_right sw (List.mem_cons_self 'x' sh))
  have h0 : pyFloatL (stripChars ((splitOnX (sw ++ 'x' :: sh)).getD 0 []))
      = some w := by
    rw [hsplit, show List.getD [sw, sh] 0 [] = sw from rfl, hstripw, hpw]
  have h1 : pyFloatL (stripChars ((splitOnX (sw ++ 'x' :: sh)).getD 1 []))
      = some h := by
    rw [hsplit, show List.getD [sw, sh] 1 [] = sh from rfl, hstriph, hph]
  rw [calculateArea_str, htl, hnorm]
  exact areaOfText_x_eval hcond h0 h1

/-- `pyFloatL` on the numeral `26`. -/
lemma pyFloatL_26 : pyFloatL ['2', '6'] = some 26 := by
  have h : pyFloatL ['2', '6'] = some ((26 : ℕ) : ℚ) := rfl
  rw [h]
  norm_num

/-- `pyFloatL` on the numeral `46`. -/
lemma pyFloatL_46 : pyFloatL ['4', '6'] = some 46 := by
  have h : pyFloatL ['4', '6'] = some ((46 : ℕ) : ℚ) := rfl
  rw [h]
  norm_num

/-- `pyFloatL` on the numeral `33`. -/
lemma pyFloatL_33 : pyFloatL ['3', '3'] = some 33 := by
  have h : pyFloatL ['3', '3'] = some ((33 : ℕ) : ℚ) := rfl
  rw [h]
  norm_num

/-- The float constant `mathPi` is within relative error `1e-9` of
the real number π. -/
lemma mathPi_close : |(mathPi : ℝ) - Real.pi| ≤ 1e-9 * Real.pi := by
  have hgt := Real.pi_gt_d20
  have hlt := Real.pi_lt_d20
  have hm : ((mathPi : ℚ) : ℝ) = 884279719003555 / 281474976710656 := by
    rw [mathPi]
    push_cast
    norm_num
  rw [hm, abs_le]
  constructor <;> nlinarith [hgt, hlt]

/-- C4: for a positive diameter `d`, the bare number `d` and every
textual form built from whitespace, a numeral for `d`, whitespace,
an optional unit suffix `cm` of any letter case, and whitespace
(such as `"26CM"` and `" 26 cm "`) all yield the same area
`mathPi * (d/2)^2`, which is within relative error `1e-9` of the
exact circle area `π * (d/2)^2`. -/
theorem claim_C4_round_forms (pre mid post s u : List Char) (d : ℚ)
    (hpre : ∀ c ∈ pre, isSpaceC c = true) (hmid : ∀ c ∈ mid, isSpaceC c = true)
    (hpost : ∀ c ∈ post, isSpaceC c = true)
    (hs : isPlainNumeral s = true)
    (hu : u = [] ∨ u.map lowerChar = ['c', 'm'])
    (hparse : pyFloatL s = some d) (hd : 0 < d) :
    calculateArea (PySize.str (String.mk (pre ++ s ++ mid ++ u ++ post)))
      = some (mathPi * (d / 2) ^ 2) ∧
    calculateArea (PySize.num d) = some (mathPi * (d / 2) ^ 2) ∧
    |((mathPi * (d / 2) ^ 2 : ℚ) : ℝ) - Real.pi * ((d : ℝ) / 2) ^ 2|
      ≤ 1e-9 * (Real.pi * ((d : ℝ) / 2) ^ 2) := by
  refine ⟨calcArea_round_str hpre hmid hpost hs hu hparse, rfl, ?_⟩
  have hsq : (0 : ℝ) ≤ ((d : ℝ) / 2) ^ 2 := sq_nonneg _
  have hcast : ((mathPi * (d / 2) ^ 2 : ℚ) : ℝ)
      = (mathPi : ℝ) * ((d : ℝ) / 2) ^ 2 := by
    push_cast
    ring
  rw [hcast]
  rw [show (mathPi : ℝ) * ((d : ℝ) / 2) ^ 2 - Real.pi * ((d : ℝ) / 2) ^ 2
      = ((mathPi : ℝ) - Real.pi) * ((d : ℝ) / 2) ^ 2 from by ring]
  rw [abs_mul, abs_of_nonneg hsq]
  calc |(mathPi : ℝ) - Real.pi| * ((d : ℝ) / 2) ^ 2
      ≤ (1e-9 * Real.pi) * ((d : ℝ) / 2) ^ 2 :=
        mul_le_mul_of_nonneg_right mathPi_close hsq
    _ = 1e-9 * (Real.pi * ((d : ℝ) / 2) ^ 2) := by ring

/-- C4 witness: the theorem applied to `" 26 cm "` (lowercase with
whitespace) and to `"26CM"` (uppercase), both at diameter 26. -/
theorem claim_C4_round_forms_witness :
    (calculateArea (PySize.str (String.mk
        ([' '] ++ ['2', '6'] ++ [' '] ++ ['c', 'm'] ++ [' '])))
      = some (mathPi * ((26 : ℚ) / 2) ^ 2) ∧
    calculateArea (PySize.num 26) = some (mathPi * ((26 : ℚ) / 2) ^ 2) ∧
    |((mathPi * ((26 : ℚ) / 2) ^ 2 : ℚ) : ℝ) - Real.pi * (((26 : ℚ) : ℝ) / 2) ^ 2|
      ≤ 1e-9 * (Real.pi * (((26 : ℚ) : ℝ) / 2) ^ 2)) ∧
    (calculateArea (PySize.str (String.mk
        (([] : List Char) ++ ['2', '6'] ++ [] ++ ['C', 'M'] ++ [])))
      = some (mathPi * ((26 : ℚ) / 2) ^ 2) ∧
    calculateArea (PySize.num 26) = some (mathPi * ((26 : ℚ) / 2) ^ 2) ∧
    |((mathPi * ((26 : ℚ) / 2) ^ 2 : ℚ) : ℝ) - Real.pi * (((26 : ℚ) : ℝ) / 2) ^ 2|
      ≤ 1e-9 * (Real.pi * (((26 : ℚ) : ℝ) / 2) ^ 2)) :=
  ⟨claim_C4_round_forms [' '] [' '] [' '] ['2', '6'] ['c', 'm'] 26
      (by decide) (by decide) (by decide) (by decide) (Or.inr (by decide))
      pyFloatL_26 (by norm_num),
    claim_C4_round_forms [] [] [] ['2', '6'] ['C', 'M'] 26
      (by decide) (by decide) (by decide) (by decide) (Or.inr (by decide))
      pyFloatL_26 (by norm_num)⟩

/-- C5: for positive `w` and `h` given by numerals, the descriptor
`<w>x<h>cm` yields the area `w * h`. -/
theorem claim_C5_rect_area (sw sh : List Char) (w h : ℚ)
    (hw : isPlainNumeral sw = true) (hh : isPlainNumeral sh = true)
    (hpw : pyFloatL sw = some w) (hph : pyFloatL sh = some h)
    (h0w : 0 < w) (h0h : 0 < h) :
    calculateArea (PySize.str (String.mk (sw ++ 'x' :: (sh ++ ['c', 'm']))))
      = some (w * h) :=
  calcArea_rect_str hw hh hpw hph

/-- C5 witness: the theorem applied to the descriptor `"46x33cm"`. -/
theorem claim_C5_rect_area_witness :
    calculateArea (PySize.str (String.mk
        (['4', '6'] ++ 'x' :: (['3', '3'] ++ ['c', 'm']))))
      = some ((46 : ℚ) * 33) :=
  claim_C5_rect_area ['4', '6'] ['3', '3'] 46 33 (by decide) (by decide)
    pyFloatL_46 pyFloatL_33 (by norm_num) (by norm_num)

/-- `mathPi` is positive. -/
lemma mathPi_pos : 0 < mathPi := by
  rw [mathPi]
  norm_num

/-- The invariants of a constructed pizza with positive area and
non-negative price. -/
lemma mk'_invariants {name : String} {size : PySize} {price a : ℚ}
    (hp : 0 ≤ price) (ha : calculateArea size = some a) (hpos : 0 < a) :
    ∀ pz, Pizza.mk' name size price = some pz →
      0 < pz.area ∧ 0 ≤ pz.value_ratio ∧ (pz.value_ratio = 0 ↔ price = 0) := by
  intro pz hpz
  rw [Pizza.mk', ha, Option.map_some', Option.some_inj] at hpz
  subst hpz
  rcases eq_or_lt_of_le hp with hp0 | hp0
  · have hif : (if 0 < price then a / price else 0) = 0 := by
      rw [if_neg (by rw [← hp0]; exact lt_irrefl 0)]
    exact ⟨hpos, by rw [hif], by rw [hif]; exact iff_of_true rfl hp0.symm⟩
  · have hif : (if 0 < price then a / price else 0) = a / price := if_pos hp0
    have hr : 0 < a / price := div_pos hpos hp0
    exact ⟨hpos, by rw [hif]; exact hr.le,
      by rw [hif]; exact iff_of_false (ne_of_gt hr) (ne_of_gt hp0)⟩

/-- C7: a pizza built from a valid descriptor (positive diameter,
or both dimensions positive) with non-negative price satisfies
`area > 0`, `value_ratio ≥ 0`, and `value_ratio = 0` exactly when
the price is 0. -/
theorem claim_C7_invariants (name : String) (price : ℚ) (hp : 0 ≤ price) :
    (∀ d : ℚ, 0 < d → ∀ pz, Pizza.mk' name (PySize.num d) price = some pz →
      0 < pz.area ∧ 0 ≤ pz.value_ratio ∧ (pz.value_ratio = 0 ↔ price = 0)) ∧
    (∀ pre mid post s u : List Char, ∀ d : ℚ,
      (∀ c ∈ pre, isSpaceC c = true) → (∀ c ∈ mid, isSpaceC c = true) →
      (∀ c ∈ post, isSpaceC c = true) → isPlainNumeral s = true →
      (u = [] ∨ u.map lowerChar = ['c', 'm']) → pyFloatL s = some d → 0 < d →
      ∀ pz, Pizza.mk' name
          (PySize.str (String.mk (pre ++ s ++ mid ++ u ++ post))) price = some pz →
      0 < pz.area ∧ 0 ≤ pz.value_ratio ∧ (pz.value_ratio = 0 ↔ price = 0)) ∧
    (∀ sw sh : List Char, ∀ w h : ℚ,
      isPlainNumeral sw = true → isPlainNumeral sh = true →
      pyFloatL sw = some w → pyFloatL sh = some h → 0 < w → 0 < h →
      ∀ pz, Pizza.mk' name
          (PySize.str (String.mk (sw ++ 'x' :: (sh ++ ['c', 'm'])))) price = some pz →
      0 < pz.area ∧ 0 ≤ pz.value_ratio ∧ (pz.value_ratio = 0 ↔ price = 0)) := by
  refine ⟨?_, ?_, ?_⟩
  · intro d hd
    exact mk'_invariants hp rfl
      (mul_pos mathPi_pos (pow_pos (div_pos hd (by norm_num)) 2))
  · intro pre mid post s u d hpre hmid hpost hs hu hparse hd
    exact mk'_invariants hp (calcArea_round_str hpre hmid hpost hs hu hparse)
      (mul_pos mathPi_pos (pow_pos (div_pos hd (by norm_num)) 2))
  · intro sw sh w h hw hh hpw hph h0w h0h
    exact mk'_invariants hp (calcArea_rect_str hw hh hpw hph) (mul_pos h0w h0h)

/-- C7 witness: the invariants hold for the small pizza of the
fixed dataset, built from descriptor `"26cm"` at price 24/5. -/
theorem claim_C7_invariants_witness :
    0 < smallP.area ∧ 0 ≤ smallP.value_ratio ∧
      (smallP.value_ratio = 0 ↔ (24 / 5 : ℚ) = 0) := by
  have hmk : Pizza.mk' "Small Pizza"
      (PySize.str (String.mk (([] : List Char) ++ ['2', '6'] ++ [] ++ ['c', 'm'] ++ [])))
      (24 / 5) = some smallP := by
    show Pizza.mk' "Small Pizza" (PySize.str "26cm") (24 / 5) = some smallP
    rw [mk'_eval_pos _ _ _ _ (by norm_num) areaEval_26cm]
    rfl
  exact (claim_C7_invariants "Small Pizza" (24 / 5) (by norm_num)).2.1
    [] [] [] ['2', '6'] ['c', 'm'] 26 (by decide) (by decide) (by decide)
    (by decide) (Or.inr (by decide)) pyFloatL_26 (by norm_num) smallP hmk

/-- `insertDesc` permutes the element into the list. -/
lemma insertDesc_perm (p : Pizza) (r : List Pizza) :
    (insertDesc p r).Perm (p :: r) := by
  induction r with
  | nil => exact List.Perm.refl _
  | cons q qs ih =>
    rw [insertDesc]
    split_ifs with h
    · exact List.Perm.refl _
    · exact (ih.cons q).trans (List.Perm.swap p q qs)

/-- `rank` is a permutation of its input. -/
lemma rank_perm (l : List Pizza) : (rank l).Perm l := by
  induction l with
  | nil => exact List.Perm.refl _
  | cons p ps ih =>
    rw [rank]
    exact (insertDesc_perm p (rank ps)).trans (ih.cons p)

/-- `insertDesc` preserves descending sortedness. -/
lemma insertDesc_sorted {r : List Pizza}
    (hr : List.Pairwise (fun a b => b.value_ratio ≤ a.value_ratio) r)
    (p : Pizza) :
    List.Pairwise (fun a b => b.value_ratio ≤ a.value_ratio) (insertDesc p r) := by
  induction r with
  | nil => simp [insertDesc]
  | cons q qs ih =>
    rw [insertDesc]
    rw [List.pairwise_cons] at hr
    split_ifs with h
    · rw [List.pairwise_cons]
      refine ⟨?_, List.pairwise_cons.mpr hr⟩
      intro b hb
      rcases List.mem_cons.mp hb with hb | hb
      · subst hb
        exact h
      · exact le_trans (hr.1 b hb) h
    · rw [List.pairwise_cons]
      refine ⟨?_, ih hr.2⟩
      intro b hb
      have hb' := (insertDesc_perm p qs).mem_iff.mp hb
      rcases List.mem_cons.mp hb' with hb' | hb'
      · subst hb'
        exact le_of_not_le h
      · exact hr.1 b hb'

/-- `rank` is sorted by non-increasing value ratio. -/
lemma rank_sorted (l : List Pizza) :
    List.Pairwise (fun a b => b.value_ratio ≤ a.value_ratio) (rank l) := by
  induction l with
  | nil => simp [rank]
  | cons p ps ih =>
    rw [rank]
    exact insertDesc_sorted ih p

/-- Inserting an element of ratio `c` prepends it to the filter at
ratio `c`: all elements passed over have strictly larger ratio. -/
lemma insertDesc_filter_pos {p : Pizza} {c : ℚ} (hc : p.value_ratio = c)
    (r : List Pizza) :
    (insertDesc p r).filter (fun q => decide (q.value_ratio = c))
      = p :: r.filter (fun q => decide (q.value_ratio = c)) := by
  induction r with
  | nil => simp [insertDesc, List.filter, hc]
  | cons q qs ih =>
    rw [insertDesc]
    split_ifs with h
    · rw [List.filter_cons_of_pos (by simp [hc])]
    · have hq : ¬ q.value_ratio = c := by
        intro he
        rw [← hc] at he
        exact h (le_of_eq he)
      rw [List.filter_cons_of_neg (by simp [hq]), ih,
        List.filter_cons_of_neg (by simp [hq])]

/-- Inserting an element of ratio other than `c` leaves the filter
at ratio `c` unchanged. -/
lemma insertDesc_filter_neg {p : Pizza} {c : ℚ} (hc : ¬ p.value_ratio = c)
    (r : List Pizza) :
    (insertDesc p r).filter (fun q => decide (q.value_ratio = c))
      = r.filter (fun q => decide (q.value_ratio = c)) := by
  induction r with
  | nil => simp [insertDesc, List.filter, hc]
  | cons q qs ih =>
    rw [insertDesc]
    split_ifs with h
    · rw [List.filter_cons_of_neg (by simp [hc])]
    · by_cases hq : q.value_ratio = c
      · rw [List.filter_cons_of_pos (by simp [hq]), ih,
          List.filter_cons_of_pos (by simp [hq])]
      · rw [List.filter_cons_of_neg (by simp [hq]), ih,
          List.filter_cons_of_neg (by simp [hq])]

/-- Stability of `rank`: the sublist of elements at any given ratio
is preserved, with its original order. -/
lemma rank_filter (l : List Pizza) (c : ℚ) :
    (rank l).filter (fun q => decide (q.value_ratio = c))
      = l.filter (fun q => decide (q.value_ratio = c)) := by
  induction l with
  | nil => rfl
  | cons p ps ih =>
    rw [rank]
    by_cases hc : p.value_ratio = c
    · rw [insertDesc_filter_pos hc, ih, List.filter_cons_of_pos (by simp [hc])]
    · rw [insertDesc_filter_neg hc, ih, List.filter_cons_of_neg (by simp [hc])]

/-- The fold of `max` returns the first element of maximal ratio:
it occurs in the list, everything strictly before it is strictly
smaller, and nothing exceeds it. -/
lemma bestOf_first_max (ps : List Pizza) : ∀ p : Pizza,
    ∃ l1 l2, p :: ps = l1 ++ bestOf p ps :: l2 ∧
      (∀ q ∈ l1, q.value_ratio < (bestOf p ps).value_ratio) ∧
      (∀ q ∈ p :: ps, q.value_ratio ≤ (bestOf p ps).value_ratio) := by
  induction ps with
  | nil =>
    intro p
    refine ⟨[], [], rfl, by simp, ?_⟩
    intro q hq
    rcases List.mem_cons.mp hq with hq | hq
    · subst hq
      exact le_refl _
    · cases hq
  | cons q qs ih =>
    intro p
    have hfold : bestOf p (q :: qs) = bestOf (maxStep p q) qs := rfl
    by_cases hpq : q.value_ratio > p.value_ratio
    · have hstep : maxStep p q = q := if_pos hpq
      obtain ⟨l1, l2, hsplit, hlt, hle⟩ := ih q
      rw [hfold, hstep]
      refine ⟨p :: l1, l2, ?_, ?_, ?_⟩
      · rw [List.cons_append, ← hsplit]
      · intro x hx
        rcases List.mem_cons.mp hx with hx | hx
        · subst hx
          exact lt_of_lt_of_le hpq (hle q (List.mem_cons_self q qs))
        · exact hlt x hx
      · intro x hx
        rcases List.mem_cons.mp hx with hx | hx
        · subst hx
          exact le_of_lt (lt_of_lt_of_le hpq (hle q (List.mem_cons_self q qs)))
        · exact hle x hx
    · have hstep : maxStep p q = p := if_neg hpq
      have hqp : q.value_ratio ≤ p.value_ratio := le_of_not_lt hpq
      obtain ⟨l1, l2, hsplit, hlt, hle⟩ := ih p
      rw [hfold, hstep]
      cases l1 with
      | nil =>
        rw [List.nil_append] at hsplit
        injection hsplit with h1 h2
        refine ⟨[], q :: qs, ?_, by simp, ?_⟩
        · rw [List.nil_append, ← h1]
        · intro x hx
          rcases List.mem_cons.mp hx with rfl | hx
          · rw [← h1]
          · rcases List.mem_cons.mp hx with rfl | hx
            · rw [← h1]
              exact hqp
            · exact hle x (List.mem_cons_of_mem p hx)
      | cons a l1' =>
        rw [List.cons_append] at hsplit
        injection hsplit with h1 h2
        subst h1
        have hp_lt : p.value_ratio < (bestOf p qs).value_ratio :=
          hlt p (List.mem_cons_self p l1')
        refine ⟨p :: q :: l1', l2, ?_, ?_, ?_⟩
        · rw [List.cons_append, List.cons_append, ← h2]
        · intro x hx
          rcases List.mem_cons.mp hx with rfl | hx
          · exact hp_lt
          · rcases List.mem_cons.mp hx with rfl | hx
            · exact lt_of_le_of_lt hqp hp_lt
            · exact hlt x (List.mem_cons_of_mem p hx)
        · intro x hx
          rcases List.mem_cons.mp hx with rfl | hx
          · exact hle x (List.mem_cons_self x qs)
          · rcases List.mem_cons.mp hx with rfl | hx
            · exact le_trans hqp (hle p (List.mem_cons_self p qs))
            · exact hle x (List.mem_cons_of_mem p hx)

/-- `find_best_pizza` returns the first element of maximal ratio. -/
lemma find_best_first_max {l : List Pizza} {b : Pizza}
    (h : find_best_pizza l = some b) :
    ∃ l1 l2, l = l1 ++ b :: l2 ∧
      (∀ q ∈ l1, q.value_ratio < b.value_ratio) ∧
      ∀ q ∈ l, q.value_ratio ≤ b.value_ratio := by
  cases l with
  | nil => exact absurd h (by rw [find_best_pizza]; exact fun he => by cases he)
  | cons p ps =>
    have hb : b = bestOf p ps := by
      rw [find_best_pizza, Option.some_inj] at h
      exact h.symm
    subst hb
    exact bestOf_first_max ps p

/-- `insertDesc` into the empty list. -/
lemma insertDesc_nil (p : Pizza) : insertDesc p [] = [p] := rfl

/-- The head of an insertion into a non-empty list. -/
lemma headI_insertDesc_cons (p q : Pizza) (qs : List Pizza) :
    (insertDesc p (q :: qs)).headI
      = if p.value_ratio ≥ q.value_ratio then p else q := by
  rw [insertDesc]
  split_ifs <;> rfl

/-- `insertDesc` never returns the empty list. -/
lemma insertDesc_ne_nil (p : Pizza) (r : List Pizza) : insertDesc p r ≠ [] := by
  cases r with
  | nil => simp [insertDesc]
  | cons q qs =>
    rw [insertDesc]
    split_ifs <;> simp

/-- Taking the `max` step first commutes with inserting both
elements, at the level of the head of the result. -/
lemma headI_insert_maxStep (p q : Pizza) (r : List Pizza) :
    (insertDesc (maxStep p q) r).headI
      = (insertDesc p (insertDesc q r)).headI := by
  cases r with
  | nil =>
    rw [maxStep, insertDesc_nil]
    split_ifs with h
    · rw [insertDesc_nil, headI_insertDesc_cons,
        if_neg (fun hge => absurd h (not_lt.mpr hge))]
      rfl
    · rw [insertDesc_nil, headI_insertDesc_cons, if_pos (le_of_not_lt h)]
      rfl
  | cons a t =>
    rw [headI_insertDesc_cons (maxStep p q) a t]
    by_cases hqa : q.value_ratio ≥ a.value_ratio
    · rw [show insertDesc q (a :: t) = q :: a :: t from by
        rw [insertDesc, if_pos hqa]]
      rw [headI_insertDesc_cons p q (a :: t)]
      rw [maxStep]
      by_cases hpq : q.value_ratio > p.value_ratio
      · rw [if_pos hpq, if_pos hqa, if_neg (fun hge => absurd hpq (not_lt.mpr hge))]
      · rw [if_neg hpq, if_pos (le_trans hqa (le_of_not_lt hpq)),
          if_pos (le_of_not_lt hpq)]
    · rw [show insertDesc q (a :: t) = a :: insertDesc q t from by
        rw [insertDesc, if_neg hqa]]
      rw [headI_insertDesc_cons p a (insertDesc q t)]
      rw [maxStep]
      by_cases hpq : q.value_ratio > p.value_ratio
      · rw [if_pos hpq, if_neg hqa]
        rw [if_neg (fun hge : p.value_ratio ≥ a.value_ratio =>
          hqa (le_of_lt (lt_of_le_of_lt hge hpq)))]
      · rw [if_neg hpq]

/-- The Python `max` fold equals the head of the stable descending
sort. -/
lemma bestOf_eq_headI_rank (ps : List Pizza) :
    ∀ p, bestOf p ps = (rank (p :: ps)).headI := by
  induction ps with
  | nil =>
    intro p
    rfl
  | cons q qs ih =>
    intro p
    rw [show bestOf p (q :: qs) = bestOf (maxStep p q) qs from rfl,
      ih (maxStep p q)]
    rw [show rank (maxStep p q :: qs) = insertDesc (maxStep p q) (rank qs)
      from rfl]
    rw [show rank (p :: q :: qs) = insertDesc p (insertDesc q (rank qs))
      from rfl]
    exact headI_insert_maxStep p q (rank qs)

/-- `find_best_pizza` returns the head of `rank` on non-empty
input. -/
lemma find_best_eq_rank_head {l : List Pizza} (hl : l ≠ []) :
    find_best_pizza l = (rank l).head? := by
  obtain ⟨p, ps, rfl⟩ := List.exists_cons_of_ne_nil hl
  rw [show find_best_pizza (p :: ps) = some (bestOf p ps) from rfl,
    bestOf_eq_headI_rank ps p]
  rw [show rank (p :: ps) = insertDesc p (rank ps) from rfl]
  cases hr : insertDesc p (rank ps) with
  | nil => exact absurd hr (insertDesc_ne_nil p (rank ps))
  | cons b t => rfl

/-- C8: for a non-empty list, `rank` is a permutation of the input
with non-increasing value ratios, and `find_best_pizza` returns the
first element of `rank`. -/
theorem claim_C8_rank_best (l : List Pizza) (hl : l ≠ []) :
    (rank l).Perm l ∧
    List.Pairwise (fun a b => b.value_ratio ≤ a.value_ratio) (rank l) ∧
    find_best_pizza l = (rank l).head? :=
  ⟨rank_perm l, rank_sorted l, find_best_eq_rank_head hl⟩

/-- C8 witness: the theorem applied to the fixed dataset of
`main`. -/
theorem claim_C8_rank_best_witness :
    (rank [smallP, largeP, partyP]).Perm [smallP, largeP, partyP] ∧
    List.Pairwise (fun a b => b.value_ratio ≤ a.value_ratio)
      (rank [smallP, largeP, partyP]) ∧
    find_best_pizza [smallP, largeP, partyP]
      = (rank [smallP, largeP, partyP]).head? :=
  claim_C8_rank_best [smallP, largeP, partyP] (by simp)

/-- C9: for a non-empty list, `find_best_pizza` returns the first
element of maximal value ratio (stable argmax: it occurs in the
list, everything before it is strictly smaller, nothing exceeds it),
and `rank` is the stable descending sort: a permutation, sorted by
non-increasing ratio, preserving the input order of the elements at
each ratio value. -/
theorem claim_C9_stable_argmax_sort (l : List Pizza) (hl : l ≠ []) :
    (∃ b l1 l2, find_best_pizza l = some b ∧ l = l1 ++ b :: l2 ∧
      (∀ q ∈ l1, q.value_ratio < b.value_ratio) ∧
      ∀ q ∈ l, q.value_ratio ≤ b.value_ratio) ∧
    (rank l).Perm l ∧
    List.Pairwise (fun a b => b.value_ratio ≤ a.value_ratio) (rank l) ∧
    ∀ c : ℚ, (rank l).filter (fun q => decide (q.value_ratio = c))
      = l.filter (fun q => decide (q.value_ratio = c)) := by
  refine ⟨?_, rank_perm l, rank_sorted l, rank_filter l⟩
  obtain ⟨p, ps, rfl⟩ := List.exists_cons_of_ne_nil hl
  obtain ⟨l1, l2, hsplit, hlt, hle⟩ := bestOf_first_max ps p
  exact ⟨bestOf p ps, l1, l2, rfl, hsplit, hlt, hle⟩

/-- C9 witness: the theorem applied to a list with a genuine tie
(`tieA` and `tieB` share the maximal ratio; `tieA` comes first). -/
theorem claim_C9_stable_argmax_sort_witness :
    (∃ b l1 l2, find_best_pizza [tieC, tieA, tieB] = some b ∧
      [tieC, tieA, tieB] = l1 ++ b :: l2 ∧
      (∀ q ∈ l1, q.value_ratio < b.value_ratio) ∧
      ∀ q ∈ [tieC, tieA, tieB], q.value_ratio ≤ b.value_ratio) ∧
    (rank [tieC, tieA, tieB]).Perm [tieC, tieA, tieB] ∧
    List.Pairwise (fun a b => b.value_ratio ≤ a.value_ratio)
      (rank [tieC, tieA, tieB]) ∧
    ∀ c : ℚ, (rank [tieC, tieA, tieB]).filter (fun q => decide (q.value_ratio = c))
      = [tieC, tieA, tieB].filter (fun q => decide (q.value_ratio = c)) :=
  claim_C9_stable_argmax_sort [tieC, tieA, tieB] (by simp)

end PizzaCalc
